import Mathlib

/-!
Verification of the ALM constrained-regression core (files `fitting.cpp`,
`optimize.cpp`, `constraint.h`) against its natural-language specification.

Shallow embedding conventions:
* C++ `double` values are modelled by exact rationals `ℚ` (all the verified
  computations are field arithmetic; the only square roots appear inside
  convergence tests and are handled by comparing squares).
* `std::vector<double>` outputs written by index are modelled as functions
  `ℕ → ℚ` updated with `Function.update`; all claims carry in-bounds
  hypotheses matching the C++ preconditions.
* LAPACK (`dgelss_`, `dgglse_`, `dgeqp3_`) and Eigen (`SimplicialLDLT`)
  factorizations are external libraries; each call site receives the
  factorization result as an explicit oracle argument, and the theorems
  quantify over every possible oracle answer.
-/

namespace ALM

/-- `ConstraintTypeFix` of constraint.h: a parameter pinned to a value. -/
structure FixEntry where
  p_index_target : ℕ
  val_to_fix : ℚ
  deriving DecidableEq, Repr

/-- One entry of the boost bimap `index_bimap`: `left` is the contiguous
free index, `right` the original parameter index (see
`recover_original_forceconstants`, fitting.cpp:1087-1092). -/
structure BimapEntry where
  left : ℕ
  right : ℕ
  deriving DecidableEq, Repr

/-- `ConstraintTypeRelate` of constraint.h: a dependent parameter expressed
through the parameters `p_index_orig` with weights `alpha`. -/
structure RelateEntry where
  p_index_target : ℕ
  alpha : List ℚ
  p_index_orig : List ℕ
  deriving DecidableEq, Repr

/-- The per-order constraint data consumed by
`recover_original_forceconstants`: the lists returned by
`Constraint::get_const_fix`, `Constraint::get_index_bimap` and
`Constraint::get_const_relate`. -/
structure OrderConstraint where
  const_fix : List FixEntry
  index_bimap : List BimapEntry
  const_relate : List RelateEntry
  deriving DecidableEq, Repr

/-- The loop `for (j ...) param_out[...p_index_target + ishift] = ...val_to_fix`
of fitting.cpp:1083-1086. -/
def applyFixes (ishift : ℕ) (fixes : List FixEntry) (out : ℕ → ℚ) : ℕ → ℚ :=
  fixes.foldl (fun a e => Function.update a (e.p_index_target + ishift) e.val_to_fix) out

/-- The loop over `constraint->get_index_bimap(i)` of fitting.cpp:1088-1093:
`param_out[it.right + ishift] = param_in[it.left + iparam]`. -/
def applyBimap (ishift iparam : ℕ) (param_in : ℕ → ℚ) (bm : List BimapEntry)
    (out : ℕ → ℚ) : ℕ → ℚ :=
  bm.foldl (fun a e => Function.update a (e.right + ishift) (param_in (e.left + iparam))) out

/-- The inner accumulation `tmp += alpha[k] * param_out[p_index_orig[k] + ishift]`
of fitting.cpp:1098-1101, reading the current state `a`. -/
def relateSum (ishift : ℕ) (e : RelateEntry) (a : ℕ → ℚ) : ℚ :=
  (e.alpha.zip e.p_index_orig).foldl (fun s p => s + p.1 * a (p.2 + ishift)) 0

/-- The loop over `constraint->get_const_relate(i)` of fitting.cpp:1095-1103:
each dependent target is overwritten with the negated weighted sum of the
current values of its sources. -/
def applyRelate (ishift : ℕ) (rels : List RelateEntry) (out : ℕ → ℚ) : ℕ → ℚ :=
  rels.foldl (fun a e => Function.update a (e.p_index_target + ishift) (-(relateSum ishift e a))) out

/-- Body of the per-order loop of `Fitting::recover_original_forceconstants`
(fitting.cpp:1082-1103): fixed entries first, then free entries through the
bimap, then dependent entries. -/
def recoverOrder (ishift iparam : ℕ) (param_in : ℕ → ℚ) (oc : OrderConstraint)
    (out : ℕ → ℚ) : ℕ → ℚ :=
  applyRelate ishift oc.const_relate
    (applyBimap ishift iparam param_in oc.index_bimap
      (applyFixes ishift oc.const_fix out))

/-- The order loop of `recover_original_forceconstants` with its running
offsets `ishift += nequiv[i].size()` and `iparam += index_bimap(i).size()`
(fitting.cpp:1105-1106), over the list of remaining order indices. -/
def recoverLoop (param_in : ℕ → ℚ) (nequiv : ℕ → ℕ) (constraint : ℕ → OrderConstraint) :
    List ℕ → ℕ → ℕ → (ℕ → ℚ) → (ℕ → ℚ)
  | [], _, _, out => out
  | i :: rest, ishift, iparam, out =>
      recoverLoop param_in nequiv constraint rest
        (ishift + nequiv i) (iparam + (constraint i).index_bimap.length)
        (recoverOrder ishift iparam param_in (constraint i) out)

/-- `Fitting::recover_original_forceconstants` (fitting.cpp:1061-1108), also
verbatim `Optimize::recover_original_forceconstants` (optimize.cpp:1844-1891).
`nequiv i` is `nequiv[i].size()`; the output vector starts as the
all-zero vector produced by `param_out.resize(nparams, 0.0)` on a fresh
vector.  Indices of order `i` live in the block starting at
`ishift i = Σ_{k<i} nequiv k`. -/
def recover_original_forceconstants (maxorder : ℕ) (param_in : ℕ → ℚ)
    (nequiv : ℕ → ℕ) (constraint : ℕ → OrderConstraint) : ℕ → ℚ :=
  recoverLoop param_in nequiv constraint (List.range maxorder) 0 0 (fun _ => 0)

/-- The running offset `ishift` at the start of order `i`. -/
def ishiftAt (nequiv : ℕ → ℕ) (i : ℕ) : ℕ :=
  ((List.range i).map nequiv).sum

/-- The running offset `iparam` at the start of order `i`. -/
def iparamAt (constraint : ℕ → OrderConstraint) (i : ℕ) : ℕ :=
  ((List.range i).map (fun k => (constraint k).index_bimap.length)).sum

/-- `Fitting::factorial` (fitting.cpp:1266-1272), also verbatim
`Optimize::factorial` (optimize.cpp:2036-2042), as a fuel-indexed partial
recursion on the C++ `int` argument (modelled as `ℤ`): `none` means the
recursion did not reach a base case within `fuel` unfoldings. -/
def factorialFuel : ℕ → ℤ → Option ℤ
  | 0, _ => none
  | fuel + 1, n =>
      if n = 1 ∨ n = 0 then some 1
      else (factorialFuel fuel (n - 1)).map (fun r => n * r)

/-- Modelled from the spec: `insort` (declared in mathfunctions.h, which is
not under src/) sorts the integer array ascending; `Fitting::gamma` uses it
to bring equal atom-coordinate indices next to each other before counting
multiplicities (§4.4: "product of factorials of repeated-index
multiplicities"). -/
def insort (l : List ℤ) : List ℤ :=
  l.insertionSort (· ≤ ·)

/-- The run-length scan of `Fitting::gamma` (fitting.cpp:1175-1186) over the
sorted copy: `cur` is the count of the current run (`nsame[iuniq]`),
`prev` the previous element (`arr_tmp[i-1]`); a fresh run emits the finished
count and restarts at 1 (`++nsame[++iuniq]`). -/
def runMultsAux : List ℤ → ℕ → ℤ → List ℕ
  | [], cur, _ => [cur]
  | x :: t, cur, prev =>
      if x = prev then runMultsAux t (cur + 1) x
      else cur :: runMultsAux t 1 x

/-- The multiplicities `nsame[0..nuniq)` computed by `Fitting::gamma`
from the sorted array (`nsame[0] = 1` before the scan starts). -/
def runMults : List ℤ → List ℕ
  | [] => []
  | a :: t => runMultsAux t 1 a

/-- `Fitting::gamma` (fitting.cpp:1154-1199), also verbatim `Optimize::gamma`
(optimize.cpp:1934-1979).  The C++ `n` is `arr.length`.  `nsame_to_front`
starts at 1 (position 0) and counts the positions `i ≥ 1` with
`arr[i] == ind_front`; `denom` multiplies `factorial(nsame[i])` over the runs
of the sorted copy (the multiplicities are ≥ 1, where the C++ `int`
factorial agrees with `Nat.factorial`); the result is the double quotient,
modelled exactly in `ℚ`. -/
def gamma (arr : List ℤ) : ℚ :=
  let ind_front := arr.headI
  let nsame_to_front := 1 + (arr.drop 1).count ind_front
  let arr_tmp := insort arr
  let denom := ((runMults arr_tmp).map Nat.factorial).prod
  (nsame_to_front : ℚ) / (denom : ℚ)

/-- The spec's formula for the combinatorial symmetry factor, written from
the spec's words (§4.4) for comparison with `gamma`: "(count of tuple
positions matching the distinguished atom) divided by (product of factorials
of repeated-index multiplicities)", the distinguished index being the front
entry and the product ranging over the distinct values of the tuple. -/
def gammaSpecFormula (arr : List ℤ) : ℚ :=
  ((arr.count arr.headI : ℕ) : ℚ) /
    (((arr.dedup.map (fun v => Nat.factorial (arr.count v))).prod : ℕ) : ℚ)

lemma runMultsAux_eq_of_sorted (a : ℤ) :
    ∀ (t : List ℤ), t.Sorted (· ≤ ·) → (∀ x ∈ t, a ≤ x) → ∀ cur : ℕ,
      runMultsAux t cur a = (cur + t.count a) :: runMults (t.filter (fun x => x ≠ a)) := by
  intro t
  induction t with
  | nil => intro _ _ cur; simp [runMultsAux, runMults]
  | cons b t' ih =>
      intro hs hge cur
      rcases List.sorted_cons.mp hs with ⟨hb, hs'⟩
      by_cases hba : b = a
      · subst hba
        rw [runMultsAux, if_pos rfl, ih hs' hb (cur + 1)]
        simp [List.count_cons, Nat.add_assoc, Nat.add_comm 1]
      · have hab : a < b := lt_of_le_of_ne (hge b (List.mem_cons_self b t')) (Ne.symm hba)
        have hnotmem : a ∉ b :: t' := by
          intro hmem
          rcases List.mem_cons.mp hmem with h | h
          · exact absurd h.symm hba
          · exact absurd (hb a h) (not_le.mpr hab)
        have hcount : (b :: t').count a = 0 := List.count_eq_zero.mpr hnotmem
        have hfilter : (b :: t').filter (fun x => x ≠ a) = b :: t' := by
          apply List.filter_eq_self.mpr
          intro x hx
          have : a ≤ x := hge x hx
          have : x ≠ a := by
            intro hxa
            subst hxa
            rcases List.mem_cons.mp hx with h | h
            · exact hba h.symm
            · exact absurd (hb x h) (not_le.mpr hab)
          simpa using this
        rw [runMultsAux, if_neg hba, hcount, hfilter, Nat.add_zero]
        rfl

lemma runMults_fac_prod :
    ∀ (n : ℕ) (s : List ℤ), s.length ≤ n → s.Sorted (· ≤ ·) →
      ((runMults s).map Nat.factorial).prod =
        ∏ v ∈ s.toFinset, Nat.factorial (s.count v) := by
  intro n
  induction n with
  | zero =>
      intro s hlen _
      have : s = [] := List.eq_nil_of_length_eq_zero (Nat.le_zero.mp hlen)
      subst this
      simp [runMults]
  | succ n ih =>
      intro s hlen hs
      cases s with
      | nil => simp [runMults]
      | cons a t =>
          rcases List.sorted_cons.mp hs with ⟨ha, ht⟩
          have hrt : ∀ v, v ∈ t.filter (fun x => x ≠ a) → v ≠ a := by
            intro v hv
            have := (List.mem_filter.mp hv).2
            simpa using this
          have hrcount : ∀ v, v ≠ a →
              (t.filter (fun x => x ≠ a)).count v = t.count v := by
            intro v hv
            exact List.count_filter (by simpa using hv)
          have hrlen : (t.filter (fun x => x ≠ a)).length ≤ n := by
            have h1 : (t.filter (fun x => x ≠ a)).length ≤ t.length :=
              List.length_filter_le _ _
            have h2 : t.length ≤ n := by
              simp only [List.length_cons] at hlen
              omega
            exact le_trans h1 h2
          have hrs : (t.filter (fun x => x ≠ a)).Sorted (· ≤ ·) :=
            List.Pairwise.filter _ ht
          have hanotr : a ∉ (t.filter (fun x => x ≠ a)).toFinset := by
            intro hmem
            exact hrt a (List.mem_toFinset.mp hmem) rfl
          have htf : (a :: t).toFinset = insert a (t.filter (fun x => x ≠ a)).toFinset := by
            ext x
            simp only [List.mem_toFinset, List.mem_cons, Finset.mem_insert, List.mem_filter]
            constructor
            · rintro (h | h)
              · exact Or.inl h
              · by_cases hxa : x = a
                · exact Or.inl hxa
                · exact Or.inr ⟨h, by simpa using hxa⟩
            · rintro (h | h)
              · exact Or.inl h
              · exact Or.inr h.1
          have hstep : runMults (a :: t) =
              (1 + t.count a) :: runMults (t.filter (fun x => x ≠ a)) := by
            rw [runMults]
            exact runMultsAux_eq_of_sorted a t ht ha 1
          rw [hstep]
          rw [List.map_cons, List.prod_cons, ih _ hrlen hrs, htf,
            Finset.prod_insert hanotr]
          congr 1
          · congr 1
            rw [List.count_cons_self, Nat.add_comm]
          · apply Finset.prod_congr rfl
            intro v hv
            have hva : v ≠ a := hrt v (List.mem_toFinset.mp hv)
            rw [List.count_cons_of_ne hva, hrcount v hva]

lemma dedup_map_prod (arr : List ℤ) :
    ((arr.dedup.map (fun v => Nat.factorial (arr.count v))).prod : ℕ) =
      ∏ v ∈ arr.toFinset, Nat.factorial (arr.count v) := by
  have hdt : arr.dedup.toFinset = arr.toFinset :=
    List.toFinset.ext (fun x => List.mem_dedup)
  rw [← List.prod_toFinset _ (List.nodup_dedup arr), hdt]

/-- C3: for every nonempty tuple of atom-coordinate indices, `gamma` equals
the spec's combinatorial symmetry factor: (count of positions equal to the
front index) divided by (product over distinct values of the factorial of the
value's multiplicity). -/
theorem gamma_eq_specFormula (arr : List ℤ) (h : arr ≠ []) :
    gamma arr = gammaSpecFormula arr := by
  obtain ⟨a, t, rfl⟩ := List.exists_cons_of_ne_nil h
  simp only [gamma, gammaSpecFormula]
  have hnum : 1 + ((a :: t).drop 1).count ((a :: t).headI) = (a :: t).count ((a :: t).headI) := by
    simp [List.count_cons_self, Nat.add_comm]
  have hperm : List.Perm (insort (a :: t)) (a :: t) := List.perm_insertionSort _ _
  have hsorted : (insort (a :: t)).Sorted (· ≤ ·) := List.sorted_insertionSort _ _
  have hdenom : ((runMults (insort (a :: t))).map Nat.factorial).prod =
      ((a :: t).dedup.map (fun v => Nat.factorial ((a :: t).count v))).prod := by
    have hrw := runMults_fac_prod (insort (a :: t)).length (insort (a :: t)) le_rfl hsorted
    rw [hrw, dedup_map_prod, List.toFinset_eq_of_perm _ _ hperm]
    apply Finset.prod_congr rfl
    intro v _
    rw [hperm.count_eq v]
  rw [hnum, hdenom]

/-- Closed witness for `gamma_eq_specFormula` at the tuple `[3, 1, 3, 1]`. -/
theorem gamma_eq_specFormula_witness :
    gamma [3, 1, 3, 1] = gammaSpecFormula [3, 1, 3, 1] ∧ gamma [3, 1, 3, 1] = 1 / 2 := by
  refine ⟨gamma_eq_specFormula [3, 1, 3, 1] (by decide), ?_⟩
  norm_num [gamma, insort, runMults, runMultsAux, List.insertionSort, List.orderedInsert,
    Nat.factorial]

/-- C10: the recursive `factorial` helper, run with enough fuel, terminates
with `n!` for every `int` argument `n ≥ 0`, and for every negative argument
the recursion never reaches a base case (no amount of fuel suffices). -/
theorem factorial_terminates_iff_nonneg :
    (∀ n : ℤ, 0 ≤ n → factorialFuel (n.toNat + 1) n = some (Nat.factorial n.toNat : ℤ)) ∧
    (∀ n : ℤ, n < 0 → ∀ fuel : ℕ, factorialFuel fuel n = none) := by
  constructor
  · have key : ∀ m : ℕ, factorialFuel (m + 1) (m : ℤ) = some (Nat.factorial m : ℤ) := by
      intro m
      induction m with
      | zero => simp [factorialFuel]
      | succ k ihk =>
          rw [factorialFuel]
          by_cases hk : (k : ℤ) + 1 = 1
          · have : k = 0 := by omega
            subst this
            norm_num
          · have hcond : ¬((k : ℤ) + 1 = 1 ∨ (k : ℤ) + 1 = 0) := by
              push_neg
              constructor
              · exact_mod_cast hk
              · omega
            rw [if_neg (by exact_mod_cast hcond)]
            have harg : ((k : ℤ) + 1) - 1 = (k : ℤ) := by ring
            rw [show (((k : ℕ) + 1 : ℕ) : ℤ) - 1 = (k : ℤ) by push_cast; ring]
            rw [ihk]
            simp [Option.map_some]
            rw [Nat.factorial_succ]
            push_cast
            ring
    intro n hn
    have := key n.toNat
    rwa [Int.toNat_of_nonneg hn] at this
  · intro n hn fuel
    induction fuel generalizing n with
    | zero => rfl
    | succ k ihk =>
        rw [factorialFuel]
        have hcond : ¬(n = 1 ∨ n = 0) := by omega
        rw [if_neg hcond, ihk (n - 1) (by omega)]
        rfl

/-- Closed witness for `factorial_terminates_iff_nonneg`: `3! = 6`, and the
recursion on `-2` produces no result with fuel 10. -/
theorem factorial_terminates_iff_nonneg_witness :
    factorialFuel 4 (3 : ℤ) = some 6 ∧ factorialFuel 10 (-2 : ℤ) = none := by
  constructor
  · have h := factorial_terminates_iff_nonneg.1 3 (by norm_num)
    norm_num at h
    exact h
  · exact factorial_terminates_iff_nonneg.2 (-2) (by norm_num) 10

lemma applyFixes_cons (ishift : ℕ) (f : FixEntry) (t : List FixEntry) (out : ℕ → ℚ) :
    applyFixes ishift (f :: t) out =
      applyFixes ishift t (Function.update out (f.p_index_target + ishift) f.val_to_fix) :=
  rfl

lemma applyBimap_cons (ishift iparam : ℕ) (param_in : ℕ → ℚ) (m : BimapEntry)
    (t : List BimapEntry) (out : ℕ → ℚ) :
    applyBimap ishift iparam param_in (m :: t) out =
      applyBimap ishift iparam param_in t
        (Function.update out (m.right + ishift) (param_in (m.left + iparam))) :=
  rfl

lemma applyRelate_cons (ishift : ℕ) (e : RelateEntry) (t : List RelateEntry) (out : ℕ → ℚ) :
    applyRelate ishift (e :: t) out =
      applyRelate ishift t
        (Function.update out (e.p_index_target + ishift) (-(relateSum ishift e out))) :=
  rfl

lemma applyFixes_apply_notMem (ishift : ℕ) (q : ℕ) :
    ∀ (fixes : List FixEntry) (out : ℕ → ℚ),
      (∀ e ∈ fixes, e.p_index_target + ishift ≠ q) →
      applyFixes ishift fixes out q = out q := by
  intro fixes
  induction fixes with
  | nil => intro out _; rfl
  | cons f t ih =>
      intro out h
      rw [applyFixes_cons, ih _ (fun e he => h e (List.mem_cons_of_mem f he)),
        Function.update_noteq (fun hq => (h f (List.mem_cons_self f t)) hq.symm)]

lemma applyBimap_apply_notMem (ishift iparam : ℕ) (param_in : ℕ → ℚ) (q : ℕ) :
    ∀ (bm : List BimapEntry) (out : ℕ → ℚ),
      (∀ e ∈ bm, e.right + ishift ≠ q) →
      applyBimap ishift iparam param_in bm out q = out q := by
  intro bm
  induction bm with
  | nil => intro out _; rfl
  | cons m t ih =>
      intro out h
      rw [applyBimap_cons, ih _ (fun e he => h e (List.mem_cons_of_mem m he)),
        Function.update_noteq (fun hq => (h m (List.mem_cons_self m t)) hq.symm)]

lemma applyRelate_apply_notMem (ishift : ℕ) (q : ℕ) :
    ∀ (rels : List RelateEntry) (out : ℕ → ℚ),
      (∀ e ∈ rels, e.p_index_target + ishift ≠ q) →
      applyRelate ishift rels out q = out q := by
  intro rels
  induction rels with
  | nil => intro out _; rfl
  | cons e t ih =>
      intro out h
      rw [applyRelate_cons, ih _ (fun e' he => h e' (List.mem_cons_of_mem e he)),
        Function.update_noteq (fun hq => (h e (List.mem_cons_self e t)) hq.symm)]

lemma applyFixes_apply_mem (ishift : ℕ) :
    ∀ (fixes : List FixEntry) (out : ℕ → ℚ) (f : FixEntry),
      f ∈ fixes → (fixes.map (fun e => e.p_index_target)).Nodup →
      applyFixes ishift fixes out (f.p_index_target + ishift) = f.val_to_fix := by
  intro fixes
  induction fixes with
  | nil => intro _ f hf; exact absurd hf (List.not_mem_nil f)
  | cons g t ih =>
      intro out f hf hnd
      rw [List.map_cons] at hnd
      rcases List.nodup_cons.mp hnd with ⟨hg, hnd'⟩
      rcases List.mem_cons.mp hf with h | h
      · subst h
        rw [applyFixes_cons]
        rw [applyFixes_apply_notMem]
        · exact Function.update_same _ _ _
        · intro e he hkey
          apply hg
          have hfe : f.p_index_target = e.p_index_target := by omega
          rw [hfe]
          exact List.mem_map_of_mem _ he
      · rw [applyFixes_cons]
        exact ih _ f h hnd'

lemma applyBimap_apply_mem (ishift iparam : ℕ) (param_in : ℕ → ℚ) :
    ∀ (bm : List BimapEntry) (out : ℕ → ℚ) (m : BimapEntry),
      m ∈ bm → (bm.map (fun e => e.right)).Nodup →
      applyBimap ishift iparam param_in bm out (m.right + ishift) =
        param_in (m.left + iparam) := by
  intro bm
  induction bm with
  | nil => intro _ m hm; exact absurd hm (List.not_mem_nil m)
  | cons g t ih =>
      intro out m hm hnd
      rw [List.map_cons] at hnd
      rcases List.nodup_cons.mp hnd with ⟨hg, hnd'⟩
      rcases List.mem_cons.mp hm with h | h
      · subst h
        rw [applyBimap_cons]
        rw [applyBimap_apply_notMem]
        · exact Function.update_same _ _ _
        · intro e he hkey
          apply hg
          have hfe : m.right = e.right := by omega
          rw [hfe]
          exact List.mem_map_of_mem _ he
      · rw [applyBimap_cons]
        exact ih _ m h hnd'

lemma relateSum_congr (ishift : ℕ) (e : RelateEntry) (a b : ℕ → ℚ)
    (h : ∀ p ∈ e.p_index_orig, a (p + ishift) = b (p + ishift)) :
    relateSum ishift e a = relateSum ishift e b := by
  unfold relateSum
  have key : ∀ (l : List (ℚ × ℕ)) (s : ℚ), (∀ pr ∈ l, pr.2 ∈ e.p_index_orig) →
      l.foldl (fun s p => s + p.1 * a (p.2 + ishift)) s =
        l.foldl (fun s p => s + p.1 * b (p.2 + ishift)) s := by
    intro l
    induction l with
    | nil => intro s _; rfl
    | cons pr t ih =>
        intro s hmem
        simp only [List.foldl_cons]
        rw [h pr.2 (hmem pr (List.mem_cons_self pr t))]
        exact ih _ (fun x hx => hmem x (List.mem_cons_of_mem pr hx))
  apply key
  intro pr hpr
  exact (List.of_mem_zip hpr).2

lemma applyRelate_apply_mem (ishift : ℕ) :
    ∀ (rels : List RelateEntry) (out : ℕ → ℚ) (e : RelateEntry),
      e ∈ rels → (rels.map (fun r => r.p_index_target)).Nodup →
      (∀ r ∈ rels, ∀ p ∈ e.p_index_orig, r.p_index_target ≠ p) →
      applyRelate ishift rels out (e.p_index_target + ishift) =
        -(relateSum ishift e out) := by
  intro rels
  induction rels with
  | nil => intro _ e he; exact absurd he (List.not_mem_nil e)
  | cons g t ih =>
      intro out e he hnd hsrc
      rw [List.map_cons] at hnd
      rcases List.nodup_cons.mp hnd with ⟨hg, hnd'⟩
      rcases List.mem_cons.mp he with h | h
      · subst h
        rw [applyRelate_cons]
        rw [applyRelate_apply_notMem]
        · exact Function.update_same _ _ _
        · intro r hr hkey
          apply hg
          have hfe : e.p_index_target = r.p_index_target := by omega
          rw [hfe]
          exact List.mem_map_of_mem _ hr
      · rw [applyRelate_cons]
        rw [ih _ e h hnd' (fun r hr => hsrc r (List.mem_cons_of_mem g hr))]
        congr 1
        apply relateSum_congr
        intro p hp
        exact Function.update_noteq
          (fun hq => (hsrc g (List.mem_cons_self g t) p hp) (by omega)) _ _

lemma recoverOrder_apply_notMem (ishift iparam : ℕ) (pin : ℕ → ℚ) (oc : OrderConstraint)
    (out : ℕ → ℚ) (q : ℕ)
    (hfix : ∀ e ∈ oc.const_fix, e.p_index_target + ishift ≠ q)
    (hbm : ∀ e ∈ oc.index_bimap, e.right + ishift ≠ q)
    (hrel : ∀ e ∈ oc.const_relate, e.p_index_target + ishift ≠ q) :
    recoverOrder ishift iparam pin oc out q = out q := by
  unfold recoverOrder
  rw [applyRelate_apply_notMem _ _ _ _ hrel, applyBimap_apply_notMem _ _ _ _ _ _ hbm,
    applyFixes_apply_notMem _ _ _ _ hfix]

lemma recoverOrder_apply_lt (ishift iparam : ℕ) (pin : ℕ → ℚ) (oc : OrderConstraint)
    (out : ℕ → ℚ) (q : ℕ) (hq : q < ishift) :
    recoverOrder ishift iparam pin oc out q = out q := by
  apply recoverOrder_apply_notMem <;> intro e _ <;> omega

lemma recoverLoop_apply_lt (pin : ℕ → ℚ) (nequiv : ℕ → ℕ) (constraint : ℕ → OrderConstraint) :
    ∀ (orders : List ℕ) (ishift iparam : ℕ) (out : ℕ → ℚ) (q : ℕ), q < ishift →
      recoverLoop pin nequiv constraint orders ishift iparam out q = out q := by
  intro orders
  induction orders with
  | nil => intro ishift iparam out q _; rfl
  | cons i rest ih =>
      intro ishift iparam out q hq
      simp only [recoverLoop]
      rw [ih _ _ _ _ (by omega)]
      exact recoverOrder_apply_lt _ _ _ _ _ _ hq

lemma recoverLoop_append (pin : ℕ → ℚ) (nequiv : ℕ → ℕ) (constraint : ℕ → OrderConstraint) :
    ∀ (l₁ l₂ : List ℕ) (ishift iparam : ℕ) (out : ℕ → ℚ),
      recoverLoop pin nequiv constraint (l₁ ++ l₂) ishift iparam out =
        recoverLoop pin nequiv constraint l₂
          (ishift + (l₁.map nequiv).sum)
          (iparam + (l₁.map (fun k => (constraint k).index_bimap.length)).sum)
          (recoverLoop pin nequiv constraint l₁ ishift iparam out) := by
  intro l₁
  induction l₁ with
  | nil => intro l₂ ishift iparam out; simp [recoverLoop]
  | cons i rest ih =>
      intro l₂ ishift iparam out
      simp only [List.cons_append, recoverLoop, List.map_cons, List.sum_cons, List.append_eq]
      rw [ih]
      rw [Nat.add_assoc, Nat.add_assoc]

lemma ishiftAt_succ (nequiv : ℕ → ℕ) (i : ℕ) :
    ishiftAt nequiv (i + 1) = ishiftAt nequiv i + nequiv i := by
  unfold ishiftAt
  rw [List.range_succ]
  simp

lemma ishiftAt_mono (nequiv : ℕ → ℕ) {i j : ℕ} (hij : i ≤ j) :
    ishiftAt nequiv i ≤ ishiftAt nequiv j := by
  induction j with
  | zero =>
      have h0 : i = 0 := Nat.le_zero.mp hij
      subst h0; exact le_rfl
  | succ m ihm =>
      by_cases h : i ≤ m
      · exact le_trans (ihm h) (by rw [ishiftAt_succ]; omega)
      · have heq : i = m + 1 := by omega
        subst heq; exact le_rfl

lemma recover_apply_block (pin : ℕ → ℚ) (nequiv : ℕ → ℕ)
    (constraint : ℕ → OrderConstraint) (i q : ℕ)
    (hq : q < ishiftAt nequiv i + nequiv i) :
    ∀ maxorder, i < maxorder →
      recover_original_forceconstants maxorder pin nequiv constraint q =
        recoverOrder (ishiftAt nequiv i) (iparamAt constraint i) pin (constraint i)
          (recoverLoop pin nequiv constraint (List.range i) 0 0 (fun _ => 0)) q := by
  intro maxorder
  induction maxorder with
  | zero => intro h; exact absurd h (Nat.not_lt_zero i)
  | succ m ihm =>
      intro him
      unfold recover_original_forceconstants
      rw [List.range_succ, recoverLoop_append]
      by_cases hcase : i = m
      · subst hcase
        simp only [recoverLoop, Nat.zero_add]
        rfl
      · have hilt : i < m := by omega
        simp only [recoverLoop]
        have hblock : q < ishiftAt nequiv m := by
          have h1 : ishiftAt nequiv (i + 1) ≤ ishiftAt nequiv m :=
            ishiftAt_mono nequiv hilt
          rw [ishiftAt_succ] at h1
          omega
        have hsum : (((List.range m).map nequiv).sum : ℕ) = ishiftAt nequiv m := rfl
        rw [recoverOrder_apply_lt _ _ _ _ _ q (by rw [Nat.zero_add, hsum]; exact hblock)]
        have := ihm hilt
        unfold recover_original_forceconstants at this
        exact this

lemma recoverOrder_apply_fix (ishift iparam : ℕ) (pin : ℕ → ℚ) (oc : OrderConstraint)
    (out : ℕ → ℚ) (f : FixEntry) (hf : f ∈ oc.const_fix)
    (hnd : (oc.const_fix.map (fun e => e.p_index_target)).Nodup)
    (hdb : ∀ m ∈ oc.index_bimap, f.p_index_target ≠ m.right)
    (hdr : ∀ r ∈ oc.const_relate, f.p_index_target ≠ r.p_index_target) :
    recoverOrder ishift iparam pin oc out (f.p_index_target + ishift) = f.val_to_fix := by
  unfold recoverOrder
  rw [applyRelate_apply_notMem _ _ _ _ (fun r hr => by have := hdr r hr; omega),
    applyBimap_apply_notMem _ _ _ _ _ _ (fun m hm => by have := hdb m hm; omega)]
  exact applyFixes_apply_mem ishift _ _ f hf hnd

lemma recoverOrder_apply_bimap (ishift iparam : ℕ) (pin : ℕ → ℚ) (oc : OrderConstraint)
    (out : ℕ → ℚ) (m : BimapEntry) (hm : m ∈ oc.index_bimap)
    (hnd : (oc.index_bimap.map (fun e => e.right)).Nodup)
    (hdr : ∀ r ∈ oc.const_relate, m.right ≠ r.p_index_target) :
    recoverOrder ishift iparam pin oc out (m.right + ishift) = pin (m.left + iparam) := by
  unfold recoverOrder
  rw [applyRelate_apply_notMem _ _ _ _ (fun r hr => by have := hdr r hr; omega)]
  exact applyBimap_apply_mem ishift iparam pin _ _ m hm hnd

lemma recoverOrder_apply_relate (ishift iparam : ℕ) (pin : ℕ → ℚ) (oc : OrderConstraint)
    (out : ℕ → ℚ) (r : RelateEntry) (hr : r ∈ oc.const_relate)
    (hnd : (oc.const_relate.map (fun e => e.p_index_target)).Nodup)
    (hsrc : ∀ r' ∈ oc.const_relate, ∀ p ∈ r.p_index_orig, r'.p_index_target ≠ p) :
    recoverOrder ishift iparam pin oc out (r.p_index_target + ishift) =
      -(relateSum ishift r
        (applyBimap ishift iparam pin oc.index_bimap (applyFixes ishift oc.const_fix out))) := by
  unfold recoverOrder
  exact applyRelate_apply_mem ishift _ _ r hr hnd hsrc

lemma recoverOrder_apply_source (ishift iparam : ℕ) (pin : ℕ → ℚ) (oc : OrderConstraint)
    (out : ℕ → ℚ) (p : ℕ)
    (hsrcp : ∀ r' ∈ oc.const_relate, r'.p_index_target ≠ p) :
    recoverOrder ishift iparam pin oc out (p + ishift) =
      applyBimap ishift iparam pin oc.index_bimap (applyFixes ishift oc.const_fix out)
        (p + ishift) := by
  unfold recoverOrder
  exact applyRelate_apply_notMem _ _ _ _ (fun r' hr' => by have := hsrcp r' hr'; omega)

/-- C1: `recover_original_forceconstants` writes the full parameter vector in
one pass per order: under the §3 partition invariant (per order, the fixed
targets, the bimap originals and the dependent targets are distinct and
in-range, and dependent sources are never dependent targets), (a) every
`FixEntry` target receives exactly its `val_to_fix`; (b) every original
index appearing in the `index_bimap` receives the input value at its mapped
contiguous free position, offset per order by `iparam`; (c) every
`RelateEntry` target receives the negated weighted sum
`-Σ_k alpha[k] * param_out[p_index_orig[k]]` of its already-resolved
sources. -/
theorem recover_original_forceconstants_correct
    (maxorder : ℕ) (param_in : ℕ → ℚ) (nequiv : ℕ → ℕ) (constraint : ℕ → OrderConstraint)
    (hbound : ∀ i < maxorder,
      (∀ e ∈ (constraint i).const_fix, e.p_index_target < nequiv i) ∧
      (∀ e ∈ (constraint i).index_bimap, e.right < nequiv i) ∧
      (∀ e ∈ (constraint i).const_relate, e.p_index_target < nequiv i ∧
        ∀ p ∈ e.p_index_orig, p < nequiv i))
    (hnodup : ∀ i < maxorder,
      ((constraint i).const_fix.map (fun e => e.p_index_target)).Nodup ∧
      ((constraint i).index_bimap.map (fun e => e.right)).Nodup ∧
      ((constraint i).const_relate.map (fun e => e.p_index_target)).Nodup)
    (hdisj : ∀ i < maxorder,
      (∀ f ∈ (constraint i).const_fix, ∀ m ∈ (constraint i).index_bimap,
        f.p_index_target ≠ m.right) ∧
      (∀ f ∈ (constraint i).const_fix, ∀ r ∈ (constraint i).const_relate,
        f.p_index_target ≠ r.p_index_target) ∧
      (∀ m ∈ (constraint i).index_bimap, ∀ r ∈ (constraint i).const_relate,
        m.right ≠ r.p_index_target))
    (hsrc : ∀ i < maxorder, ∀ r ∈ (constraint i).const_relate, ∀ p ∈ r.p_index_orig,
      ∀ r' ∈ (constraint i).const_relate, r'.p_index_target ≠ p) :
    ∀ i < maxorder,
      (∀ f ∈ (constraint i).const_fix,
        recover_original_forceconstants maxorder param_in nequiv constraint
          (f.p_index_target + ishiftAt nequiv i) = f.val_to_fix) ∧
      (∀ m ∈ (constraint i).index_bimap,
        recover_original_forceconstants maxorder param_in nequiv constraint
          (m.right + ishiftAt nequiv i) = param_in (m.left + iparamAt constraint i)) ∧
      (∀ r ∈ (constraint i).const_relate,
        recover_original_forceconstants maxorder param_in nequiv constraint
          (r.p_index_target + ishiftAt nequiv i) =
          -(relateSum (ishiftAt nequiv i) r
            (recover_original_forceconstants maxorder param_in nequiv constraint))) := by
  intro i hi
  obtain ⟨hbf, hbb, hbr⟩ := hbound i hi
  obtain ⟨hnf, hnb, hnr⟩ := hnodup i hi
  obtain ⟨hdfb, hdfr, hdbr⟩ := hdisj i hi
  refine ⟨?_, ?_, ?_⟩
  · intro f hf
    rw [recover_apply_block _ _ _ i _ (by have := hbf f hf; omega) maxorder hi]
    exact recoverOrder_apply_fix _ _ _ _ _ f hf hnf
      (fun m hm => hdfb f hf m hm) (fun r hr => hdfr f hf r hr)
  · intro m hm
    rw [recover_apply_block _ _ _ i _ (by have := hbb m hm; omega) maxorder hi]
    exact recoverOrder_apply_bimap _ _ _ _ _ m hm hnb (fun r hr => hdbr m hm r hr)
  · intro r hr
    rw [recover_apply_block _ _ _ i _ (by have := (hbr r hr).1; omega) maxorder hi]
    rw [recoverOrder_apply_relate _ _ _ _ _ r hr hnr (fun r' hr' p hp => hsrc i hi r hr p hp r' hr')]
    congr 1
    apply relateSum_congr
    intro p hp
    rw [recover_apply_block _ _ _ i _ (by have := (hbr r hr).2 p hp; omega) maxorder hi]
    rw [recoverOrder_apply_source _ _ _ _ _ p (fun r' hr' => hsrc i hi r hr p hp r' hr')]

/-- Closed witness for `recover_original_forceconstants_correct`: one order,
three parameters, parameter 2 fixed to 5, parameter 0 free with solved value
3, parameter 1 dependent on parameter 0 with weight 2; the expansion yields
values 5, 3 and -6 respectively. -/
theorem recover_original_forceconstants_correct_witness :
    recover_original_forceconstants 1 (fun n => if n = 0 then (3 : ℚ) else 0)
        (fun _ => 3)
        (fun _ => ⟨[⟨2, 5⟩], [⟨0, 0⟩], [⟨1, [2], [0]⟩]⟩) 2 = 5 ∧
    recover_original_forceconstants 1 (fun n => if n = 0 then (3 : ℚ) else 0)
        (fun _ => 3)
        (fun _ => ⟨[⟨2, 5⟩], [⟨0, 0⟩], [⟨1, [2], [0]⟩]⟩) 0 = 3 ∧
    recover_original_forceconstants 1 (fun n => if n = 0 then (3 : ℚ) else 0)
        (fun _ => 3)
        (fun _ => ⟨[⟨2, 5⟩], [⟨0, 0⟩], [⟨1, [2], [0]⟩]⟩) 1 = -6 := by
  have h := recover_original_forceconstants_correct 1
    (fun n => if n = 0 then (3 : ℚ) else 0) (fun _ => 3)
    (fun _ => ⟨[⟨2, 5⟩], [⟨0, 0⟩], [⟨1, [2], [0]⟩]⟩)
    (by intro i _; refine ⟨?_, ?_, ?_⟩ <;> simp)
    (by intro i _; refine ⟨?_, ?_, ?_⟩ <;> simp)
    (by intro i _; refine ⟨?_, ?_, ?_⟩ <;> simp)
    (by intro i _; simp)
    0 (by omega)
  obtain ⟨ha, hb, hc⟩ := h
  have hfix := ha ⟨2, 5⟩ (by simp)
  have hfree := hb ⟨0, 0⟩ (by simp)
  have hrel := hc ⟨1, [2], [0]⟩ (by simp)
  simp only [ishiftAt, iparamAt, List.range_zero, List.map_nil, List.sum_nil,
    Nat.add_zero] at hfix hfree hrel
  refine ⟨hfix, hfree, ?_⟩
  rw [hrel]
  simp only [relateSum, List.zip_cons_cons, List.zip_nil_right, List.foldl_cons,
    List.foldl_nil, Nat.add_zero]
  rw [hfree]
  norm_num

/-- Modelled from the spec: `Constraint::get_mapping_constraint`
(constraint.cpp, which is not under src/) classifies every parameter of one
order from the reduced constraint rows (§4.3): a row with a single nonzero
coefficient fixes its parameter (value 0 for a plain invariance row); a
longer row makes its dependent column a `RelateEntry` target expressed
through the remaining (free) columns with weights `coefficient / pivot
coefficient`, so that the target value is the negated weighted sum of the
sources (matching `recover_original_forceconstants`); the §8 scenario
("row [1,1]→0 classifies parameter 0 free, parameter 1 dependent with
coefficient −1") places the dependent column last in the row.  All
remaining indices become free and are numbered contiguously in increasing
order, recorded bidirectionally in the index bimap. -/
def get_mapping_constraint (nparam : ℕ) (rows : List (List (ℕ × ℚ))) : OrderConstraint :=
  let fixes : List FixEntry :=
    rows.filterMap (fun r =>
      match r with
      | [(c, _)] => some ⟨c, 0⟩
      | _ => none)
  let relates : List RelateEntry :=
    rows.filterMap (fun r =>
      if 2 ≤ r.length then
        let piv := r.getLastD (0, 0)
        let rest := r.dropLast
        some ⟨piv.1, rest.map (fun cv => cv.2 / piv.2), rest.map (fun cv => cv.1)⟩
      else none)
  let fixedTargets := fixes.map (fun f => f.p_index_target)
  let relTargets := relates.map (fun r => r.p_index_target)
  let freeIdx := (List.range nparam).filter
    (fun j => !(fixedTargets.contains j) && !(relTargets.contains j))
  let bimap := freeIdx.enum.map (fun p => BimapEntry.mk p.1 p.2)
  ⟨fixes, bimap, relates⟩

/-- C2: the spec's scenario — 2 parameters, the single translational row
`[1,1] → 0`; classification leaves parameter 0 free and makes parameter 1
dependent with coefficient −1 (`RelateEntry` target 1, weight list `[1]`,
source `[0]`, expanded with a negation), and expanding with the solved free
value 3 produces the full vector `[3, -3]`. -/
theorem scenario_two_param_translational :
    get_mapping_constraint 2 [[(0, 1), (1, 1)]] =
      ⟨[], [⟨0, 0⟩], [⟨1, [1], [0]⟩]⟩ ∧
    recover_original_forceconstants 1 (fun _ => 3) (fun _ => 2)
        (fun _ => get_mapping_constraint 2 [[(0, 1), (1, 1)]]) 0 = 3 ∧
    recover_original_forceconstants 1 (fun _ => 3) (fun _ => 2)
        (fun _ => get_mapping_constraint 2 [[(0, 1), (1, 1)]]) 1 = -3 := by
  have hclass : get_mapping_constraint 2 [[(0, 1), (1, 1)]] =
      OrderConstraint.mk [] [⟨0, 0⟩] [⟨1, [1], [0]⟩] := by
    simp only [get_mapping_constraint, List.filterMap, List.getLastD, List.dropLast,
      List.map, List.range, List.filter, List.enum]
    norm_num
  refine ⟨hclass, ?_, ?_⟩ <;>
    simp only [recover_original_forceconstants, hclass, List.range, recoverLoop,
      recoverOrder, applyRelate, applyBimap, applyFixes, relateSum, List.foldl,
      List.zip_cons_cons, List.zip_nil_right] <;>
    norm_num [Function.update_apply]

/-- Outcome of the Eigen `SimplicialLDLT` factorization and solve of the
normal equations in `run_eigen_sparseQR`: `success` models
`ldlt.info() == Eigen::Success`, `x` the produced solution vector. -/
structure LdltResult where
  success : Bool
  x : ℕ → ℚ

/-- `Optimize::run_eigen_sparseQR` (optimize.cpp:2102-2201), also
`Fitting::run_eigen_sparseQR` (fitting.cpp:1332-1437): the sparse LDLT
factorization of `AᵀA` is the external Eigen call, received here as the
oracle `ldlt`.  On success the irreducible solution is expanded with
`recover_original_forceconstants` (the callers pass a zero-initialized
`param_out`, matching the embedding of `resize`) and 0 is returned; on
failure the function returns 1 without touching `param_out`. -/
def run_eigen_sparseQR (maxorder : ℕ) (nequiv : ℕ → ℕ) (constraint : ℕ → OrderConstraint)
    (ldlt : LdltResult) (param_out : ℕ → ℚ) : ℤ × (ℕ → ℚ) :=
  if ldlt.success then
    (0, recover_original_forceconstants maxorder ldlt.x nequiv constraint)
  else
    (1, param_out)

/-- C9: `run_eigen_sparseQR` returns status 0 and writes the recovered full
force-constant vector exactly when the LDLT factorization succeeds; on
failure it returns the distinct nonzero status 1 and leaves `param_out`
unmodified (there is no retry path: the result is a pure function of the
single factorization outcome). -/
theorem run_eigen_sparseQR_status (maxorder : ℕ) (nequiv : ℕ → ℕ)
    (constraint : ℕ → OrderConstraint) (ldlt : LdltResult) (param_out : ℕ → ℚ) :
    (ldlt.success = true →
      run_eigen_sparseQR maxorder nequiv constraint ldlt param_out =
        (0, recover_original_forceconstants maxorder ldlt.x nequiv constraint)) ∧
    (ldlt.success = false →
      run_eigen_sparseQR maxorder nequiv constraint ldlt param_out = (1, param_out)) ∧
    (0 : ℤ) ≠ 1 := by
  refine ⟨?_, ?_, by norm_num⟩ <;> intro h <;> simp [run_eigen_sparseQR, h]

/-- Closed witness for `run_eigen_sparseQR_status`: both factorization
outcomes at concrete inputs. -/
theorem run_eigen_sparseQR_status_witness :
    run_eigen_sparseQR 0 (fun _ => 0) (fun _ => ⟨[], [], []⟩) ⟨false, fun _ => 0⟩
        (fun _ => 7) = (1, fun _ => 7) ∧
    run_eigen_sparseQR 0 (fun _ => 0) (fun _ => ⟨[], [], []⟩) ⟨true, fun _ => 0⟩
        (fun _ => 7) =
      (0, recover_original_forceconstants 0 (fun _ => 0) (fun _ => 0)
          (fun _ => ⟨[], [], []⟩)) :=
  ⟨(run_eigen_sparseQR_status 0 (fun _ => 0) (fun _ => ⟨[], [], []⟩)
      ⟨false, fun _ => 0⟩ (fun _ => 7)).2.1 rfl,
   (run_eigen_sparseQR_status 0 (fun _ => 0) (fun _ => ⟨[], [], []⟩)
      ⟨true, fun _ => 0⟩ (fun _ => 7)).1 rfl⟩

/-- Outcome of the LAPACK `dgelss_` SVD driver: `sol` is the content of the
right-hand-side buffer `fsum2` after the call (the least-squares solution in
its first `N` entries), `rank` the reported numerical rank and `info` the
status code. -/
structure DgelssResult where
  sol : List ℚ
  rank : ℤ
  info : ℤ

/-- The observable outcome of a dense fit. -/
structure FitResult where
  param_out : List ℚ
  info : ℤ
  warned : Bool

/-- `Fitting::fit_without_constraints` (fitting.cpp:335-407), also verbatim
`Optimize::fit_without_constraints` (optimize.cpp:1113-1186): `bvec` is
copied into `fsum2` and padded with zeros up to `LMAX = max M N`; the
external `dgelss_` call is the oracle applied to that buffer; the
rank-deficiency warning fires when `nrank < N` (not gated on verbosity);
the first `N` entries of the solution are copied to `param_out`
unconditionally, and the LAPACK status `INFO` is returned. -/
def fit_without_constraints (N M : ℕ) (bvec : List ℚ)
    (dgelss : List ℚ → DgelssResult) : FitResult :=
  let LMAX := max M N
  let fsum2 := bvec.take M ++ List.replicate (LMAX - M) 0
  let r := dgelss fsum2
  { param_out := r.sol.take N
    info := r.info
    warned := decide (r.rank < (N : ℤ)) }

/-- C4: rank deficiency in the unconstrained dense solver is non-fatal —
for every factorization outcome the first `N` entries of the SVD solution
are copied to `param_out` and the factorization status is returned, also
when the reported rank is below `N`, in which case only the warning flag is
raised; there is no early-error path that leaves the output unwritten. -/
theorem fit_without_constraints_rank_deficiency_nonfatal
    (N M : ℕ) (bvec : List ℚ) (dgelss : List ℚ → DgelssResult)
    (hlen : N ≤ (dgelss (bvec.take M ++ List.replicate (max M N - M) 0)).sol.length) :
    (fit_without_constraints N M bvec dgelss).param_out =
      (dgelss (bvec.take M ++ List.replicate (max M N - M) 0)).sol.take N ∧
    (fit_without_constraints N M bvec dgelss).info =
      (dgelss (bvec.take M ++ List.replicate (max M N - M) 0)).info ∧
    (fit_without_constraints N M bvec dgelss).param_out.length = N ∧
    ((fit_without_constraints N M bvec dgelss).warned = true ↔
      (dgelss (bvec.take M ++ List.replicate (max M N - M) 0)).rank < (N : ℤ)) := by
  refine ⟨rfl, rfl, ?_, ?_⟩
  · simp only [fit_without_constraints]
    rw [List.length_take]
    omega
  · simp [fit_without_constraints]

/-- Closed witness for `fit_without_constraints_rank_deficiency_nonfatal`:
a rank-deficient oracle answer (`rank = 1 < N = 2`) still yields the copied
solution, its status, and the warning flag. -/
theorem fit_without_constraints_rank_deficiency_nonfatal_witness :
    (fit_without_constraints 2 2 [1, 2] (fun _ => ⟨[5, 6], 1, 0⟩)).param_out = [5, 6] ∧
    (fit_without_constraints 2 2 [1, 2] (fun _ => ⟨[5, 6], 1, 0⟩)).info = 0 ∧
    (fit_without_constraints 2 2 [1, 2] (fun _ => ⟨[5, 6], 1, 0⟩)).param_out.length = 2 ∧
    (fit_without_constraints 2 2 [1, 2] (fun _ => ⟨[5, 6], 1, 0⟩)).warned = true := by
  have h := fit_without_constraints_rank_deficiency_nonfatal 2 2 [1, 2]
    (fun _ => ⟨[5, 6], 1, 0⟩) (by norm_num)
  refine ⟨?_, h.2.1, h.2.2.1, ?_⟩
  · rw [h.1]; rfl
  · rw [h.2.2.2]; norm_num

/-- The column-major stacking loop of `Fitting::fit_with_constraints`
(fitting.cpp:432-441): per column `j < N`, the `M` design-matrix entries
`amat[i][j]` come first, then the `P` constraint-matrix entries
`cmat[i][j]`, producing the `(M+P)×N` buffer handed to `rankQRD`. -/
def stack_amat_cmat (M P N : ℕ) (amat cmat : ℕ → ℕ → ℚ) : List ℚ :=
  (List.range N).flatMap (fun j =>
    ((List.range M).map (fun i => amat i j)) ++ ((List.range P).map (fun i => cmat i j)))

lemma stack_amat_cmat_length (M P : ℕ) (amat cmat : ℕ → ℕ → ℚ) :
    ∀ N, (stack_amat_cmat M P N amat cmat).length = N * (M + P) := by
  intro N
  induction N with
  | zero => simp [stack_amat_cmat]
  | succ n ih =>
      unfold stack_amat_cmat at *
      rw [List.range_succ, List.flatMap_append, List.length_append, ih]
      simp [Nat.succ_mul]

lemma stack_amat_cmat_getD (M P : ℕ) (amat cmat : ℕ → ℕ → ℚ) :
    ∀ (N j i : ℕ), j < N → i < M + P →
      (stack_amat_cmat M P N amat cmat).getD (j * (M + P) + i) 0 =
        if i < M then amat i j else cmat (i - M) j := by
  intro N
  induction N with
  | zero => intro j i hj _; exact absurd hj (Nat.not_lt_zero j)
  | succ n ih =>
      intro j i hj hi
      rw [show stack_amat_cmat M P (n + 1) amat cmat =
          stack_amat_cmat M P n amat cmat ++
            (((List.range M).map (fun i => amat i n)) ++
             ((List.range P).map (fun i => cmat i n))) by
        unfold stack_amat_cmat
        rw [List.range_succ, List.flatMap_append]
        simp]
      by_cases hjn : j < n
      · have hlt : j * (M + P) + i < (stack_amat_cmat M P n amat cmat).length := by
          rw [stack_amat_cmat_length]
          have h1 : (j + 1) * (M + P) ≤ n * (M + P) := Nat.mul_le_mul_right _ (by omega)
          have h2 : j * (M + P) + i < (j + 1) * (M + P) := by
            rw [Nat.succ_mul]
            omega
          omega
        rw [List.getD_append _ _ _ _ hlt]
        exact ih j i hjn hi
      · have hjeq : j = n := by omega
        subst hjeq
        have hge : (stack_amat_cmat M P j amat cmat).length ≤ j * (M + P) + i := by
          rw [stack_amat_cmat_length]
          omega
        rw [List.getD_append_right _ _ _ _ hge, stack_amat_cmat_length]
        have hsub : j * (M + P) + i - j * (M + P) = i := by omega
        rw [hsub]
        by_cases him : i < M
        · rw [if_pos him]
          rw [List.getD_append _ _ _ _ (by simpa using him)]
          rw [List.getD_eq_getElem?_getD, List.getElem?_map, List.getElem?_range him]
          rfl
        · rw [if_neg him]
          rw [List.getD_append_right _ _ _ _ (by simpa using him)]
          have hpm : i - (List.map (fun i => amat i j) (List.range M)).length = i - M := by
            simp
          rw [hpm, List.getD_eq_getElem?_getD, List.getElem?_map,
            List.getElem?_range (by omega)]
          rfl

/-- Outcome of the LAPACK `dgglse_` equality-constrained solve: `x` the
solution buffer, `info` the status code. -/
structure DgglseResult where
  x : List ℚ
  info : ℤ

/-- The observable outcome of the constrained dense fit. -/
structure ConstrainedFitResult where
  param_out : List ℚ
  info : ℤ
  rank_warned : Bool

/-- `Fitting::fit_with_constraints` (fitting.cpp:409-521), also verbatim
`Optimize::fit_with_constraints` (optimize.cpp:1188-1301): the stacked
`(M+P)×N` column-major buffer is built from `amat` and `cmat` and passed to
`rankQRD` (the `dgeqp3_`-based rank computation, received as an oracle over
the buffer); a detailed warning is printed exactly when the computed rank
differs from `N`, after which the `dgglse_` solve (oracle result `dgglse`)
runs unconditionally and its solution's first `N` entries are copied to
`param_out`. -/
def fit_with_constraints (N M P : ℕ) (amat cmat : ℕ → ℕ → ℚ)
    (rankQRD : List ℚ → ℕ) (dgglse : DgglseResult) : ConstrainedFitResult :=
  let mat_tmp := stack_amat_cmat M P N amat cmat
  let nrank := rankQRD mat_tmp
  { param_out := dgglse.x.take N
    info := dgglse.info
    rank_warned := decide (nrank ≠ N) }

/-- C5: before the constrained solve, `fit_with_constraints` takes the
column rank of the stacked `(M+P)×N` matrix `(A; C)` (the buffer entry at
column-major position `j*(M+P)+i` is `A[i][j]` for `i < M` and `C[i-M][j]`
otherwise); the warning fires exactly when that rank differs from `N`, and
in every case the solve proceeds and a length-`N` solution is written to
`param_out`. -/
theorem fit_with_constraints_rank_check (N M P : ℕ) (amat cmat : ℕ → ℕ → ℚ)
    (rankQRD : List ℚ → ℕ) (dgglse : DgglseResult)
    (hlen : N ≤ dgglse.x.length) :
    (∀ j < N, ∀ i < M + P,
      (stack_amat_cmat M P N amat cmat).getD (j * (M + P) + i) 0 =
        if i < M then amat i j else cmat (i - M) j) ∧
    ((fit_with_constraints N M P amat cmat rankQRD dgglse).rank_warned = true ↔
      rankQRD (stack_amat_cmat M P N amat cmat) ≠ N) ∧
    (fit_with_constraints N M P amat cmat rankQRD dgglse).param_out = dgglse.x.take N ∧
    (fit_with_constraints N M P amat cmat rankQRD dgglse).param_out.length = N ∧
    (fit_with_constraints N M P amat cmat rankQRD dgglse).info = dgglse.info := by
  refine ⟨fun j hj i hi => stack_amat_cmat_getD M P amat cmat N j i hj hi, ?_, rfl, ?_, rfl⟩
  · simp [fit_with_constraints]
  · simp only [fit_with_constraints]
    rw [List.length_take]
    omega

/-- Closed witness for `fit_with_constraints_rank_check` with `M = N = 2`,
`P = 1`, a rank oracle answering 1 (≠ N, so the warning fires) and a
dgglse oracle solution `[9, 8]` that is still copied out. -/
theorem fit_with_constraints_rank_check_witness :
    ((stack_amat_cmat 2 1 2 (fun i j => (10 * i + j : ℚ)) (fun _ j => (100 + j : ℚ))).getD
        (1 * (2 + 1) + 2) 0 = 101) ∧
    (fit_with_constraints 2 2 1 (fun i j => (10 * i + j : ℚ)) (fun _ j => (100 + j : ℚ))
        (fun _ => 1) ⟨[9, 8], 0⟩).rank_warned = true ∧
    (fit_with_constraints 2 2 1 (fun i j => (10 * i + j : ℚ)) (fun _ j => (100 + j : ℚ))
        (fun _ => 1) ⟨[9, 8], 0⟩).param_out = [9, 8] := by
  have h := fit_with_constraints_rank_check 2 2 1 (fun i j => (10 * i + j : ℚ))
    (fun _ j => (100 + j : ℚ)) (fun _ => 1) ⟨[9, 8], 0⟩ (by norm_num)
  refine ⟨?_, ?_, ?_⟩
  · rw [h.1 1 (by norm_num) 2 (by norm_num)]
    norm_num
  · rw [h.2.1]
    norm_num
  · rw [h.2.2.1]
    rfl

/-- The `OptimizerControl` configuration struct (declared in optimize.h,
which is not under src/); field names and types are reconstructed from
their uses in optimize.cpp.  Only the fields consulted by the embedded
routines appear.  `optimizer` selects the solver family (1 = ordinary least
squares, 2 = elastic net); `standardize` is the C++ `int` flag tested for
truthiness. -/
structure OptimizerControl where
  optimizer : ℤ
  cross_validation_mode : ℤ
  l1_ratio : ℚ
  l1_alpha : ℚ
  l1_alpha_min : ℚ
  l1_alpha_max : ℚ
  num_l1_alpha : ℤ
  standardize : ℤ
  maxnum_iteration : ℕ
  tolerance_iteration : ℚ
  output_frequency : ℤ
  displacement_scaling_factor : ℚ
  debiase_after_l1opt : Bool
  deriving DecidableEq, Repr

/-- `Optimize::set_optimizer_control` (optimize.cpp:2206-2226): each
`exit(...)` aborts the program before any computation, modelled as `none`;
an accepted configuration is copied into the optimizer state unchanged
(`optcontrol = optcontrol_in`), modelled as `some c`.  `eps` is the
tolerance `constants.h::eps` (constants.h is not under src/; the theorems
quantify over it and the witnesses use `1/10^15`). -/
def set_optimizer_control (eps : ℚ) (c : OptimizerControl) : Option OptimizerControl :=
  if c.cross_validation_mode < 0 ∨ 1 < c.cross_validation_mode then none
  else if c.optimizer = 2 ∧ (c.l1_ratio ≤ eps ∨ 1 < c.l1_ratio) then none
  else if c.optimizer = 2 ∧ c.cross_validation_mode = 1 ∧
      c.l1_alpha_max ≤ c.l1_alpha_min then none
  else some c

/-- C6 counterexample: with the ordinary-least-squares solver family
selected (`optimizer = 1`), a mix ratio of 2 — outside (0,1] — is accepted
by `set_optimizer_control`, because the ratio check is gated on
`optimizer == 2` (optimize.cpp:2213-2216); so the validator, as claimed
(rejection of every out-of-range ratio), is refuted. -/
theorem set_optimizer_control_accepts_bad_ratio_for_ols :
    set_optimizer_control (1 / 10 ^ 15)
        ⟨1, 0, 2, 0, 0, 0, 0, 0, 0, 0, 0, 1, false⟩ =
      some ⟨1, 0, 2, 0, 0, 0, 0, 0, 0, 0, 0, 1, false⟩ ∧
    ¬(0 < (2 : ℚ) ∧ (2 : ℚ) ≤ 1) := by
  constructor
  · norm_num [set_optimizer_control]
  · norm_num

/-- C6 (amended): `set_optimizer_control` validates before any computation
and rejects fatally (aborts): a cross-validation mode outside {0, 1}, an
L1/L2 mix ratio outside (0,1] when the elastic-net solver family is
selected (`optimizer = 2`; the lower bound is in fact the tolerance `eps`),
and inverted penalty bounds (minimum not smaller than maximum) when
additionally cross-validation mode 1 is selected; an accepted configuration
is copied unchanged. -/
theorem set_optimizer_control_validation (eps : ℚ) (heps : 0 < eps)
    (c : OptimizerControl) :
    (¬(c.cross_validation_mode = 0 ∨ c.cross_validation_mode = 1) →
      set_optimizer_control eps c = none) ∧
    (c.optimizer = 2 → ¬(0 < c.l1_ratio ∧ c.l1_ratio ≤ 1) →
      set_optimizer_control eps c = none) ∧
    (c.optimizer = 2 → c.cross_validation_mode = 1 →
      c.l1_alpha_max ≤ c.l1_alpha_min →
      set_optimizer_control eps c = none) ∧
    (∀ c', set_optimizer_control eps c = some c' → c' = c) := by
  refine ⟨?_, ?_, ?_, ?_⟩
  · intro h
    rw [set_optimizer_control, if_pos (by omega)]
  · intro hopt h
    unfold set_optimizer_control
    split_ifs with h1 h2 h3
    · rfl
    · rfl
    · rfl
    · exfalso
      apply h2
      refine ⟨hopt, ?_⟩
      by_cases hr : c.l1_ratio ≤ 0
      · exact Or.inl (le_trans hr (le_of_lt heps))
      · push_neg at hr h
        exact Or.inr (h hr)
  · intro hopt hcv hab
    unfold set_optimizer_control
    split_ifs with h1 h2 h3
    · rfl
    · rfl
    · rfl
    · exact absurd ⟨hopt, hcv, hab⟩ h3
  · intro c' hc'
    unfold set_optimizer_control at hc'
    split_ifs at hc'
    exact (Option.some.injEq _ _ ▸ hc').symm

/-- Closed witness for `set_optimizer_control_validation`: a negative
cross-validation mode, an elastic-net ratio of 2, and inverted bounds in
cross-validation mode are each rejected, while a valid configuration is
returned unchanged. -/
theorem set_optimizer_control_validation_witness :
    set_optimizer_control (1 / 10 ^ 15)
        ⟨2, -1, 1, 0, 0, 0, 0, 0, 0, 0, 0, 1, false⟩ = none ∧
    set_optimizer_control (1 / 10 ^ 15)
        ⟨2, 0, 2, 0, 0, 0, 0, 0, 0, 0, 0, 1, false⟩ = none ∧
    set_optimizer_control (1 / 10 ^ 15)
        ⟨2, 1, 1, 0, 5, 4, 0, 0, 0, 0, 0, 1, false⟩ = none := by
  refine ⟨?_, ?_, ?_⟩
  · exact (set_optimizer_control_validation (1 / 10 ^ 15) (by norm_num)
      ⟨2, -1, 1, 0, 0, 0, 0, 0, 0, 0, 0, 1, false⟩).1 (by norm_num)
  · exact (set_optimizer_control_validation (1 / 10 ^ 15) (by norm_num)
      ⟨2, 0, 2, 0, 0, 0, 0, 0, 0, 0, 0, 1, false⟩).2.1 rfl (by norm_num)
  · exact (set_optimizer_control_validation (1 / 10 ^ 15) (by norm_num)
      ⟨2, 1, 1, 0, 5, 4, 0, 0, 0, 0, 0, 1, false⟩).2.2.1 rfl rfl (by norm_num)

/-- Modelled from the spec: `shrink` (declared in optimize.h, which is not
under src/) is the closed-form soft-threshold update of §4.6:
`sign(x) * max(|x| - a, 0)`. -/
def shrink (x a : ℚ) : ℚ :=
  (if 0 ≤ x then 1 else -1) * max (|x| - a) 0

/-- `A.col(j).dot(A.col(i))` over the `M` rows of the design matrix: the
value cached in `Prod(j, i)` by the lazy `has_prod` machinery of
`coordinate_descent` (optimize.cpp:2284-2289); the cache is
value-transparent, so the embedding computes the product directly. -/
def colDot (M : ℕ) (A : ℕ → ℕ → ℚ) (j i : ℕ) : ℚ :=
  ((List.range M).map (fun r => A r j * A r i)).sum

/-- One step `i` of the inner `for (i = 0; i < N; ++i)` loop of
`Optimize::coordinate_descent` (optimize.cpp:2279-2292 standardized branch,
2324-2337 otherwise): the coordinate is soft-thresholded (through
`scale_beta` in the non-standardized branch), and when it changed the
gradient receives `Prod.col(i) * delta(i)`. -/
def cdUpdateCoord (M : ℕ) (standardize : Bool) (A : ℕ → ℕ → ℚ)
    (Minv alphlambda : ℚ) (scale_beta : ℕ → ℚ)
    (st : (ℕ → ℚ) × (ℕ → ℚ)) (i : ℕ) : (ℕ → ℚ) × (ℕ → ℚ) :=
  let beta := st.1
  let grad := st.2
  let newbi :=
    if standardize then shrink (Minv * grad i + beta i) alphlambda
    else shrink (Minv * grad i + beta i / scale_beta i) alphlambda * scale_beta i
  let delta := beta i - newbi
  (Function.update beta i newbi,
   if delta ≠ 0 then fun j => grad j + colDot M A j i * delta else grad)

/-- One whole `while`-body iteration of `coordinate_descent`: the inner
loop over all `N` coordinates. -/
def cdIterationStep (M N : ℕ) (standardize : Bool) (A : ℕ → ℕ → ℚ)
    (Minv alphlambda : ℚ) (scale_beta : ℕ → ℚ)
    (st : (ℕ → ℚ) × (ℕ → ℚ)) : (ℕ → ℚ) × (ℕ → ℚ) :=
  (List.range N).foldl (cdUpdateCoord M standardize A Minv alphlambda scale_beta) st

/-- The squared normalized iteration change `delta.dot(delta) / N`
(optimize.cpp:2295/2340); the code compares its square root with the
tolerance. -/
def cdDiffSq (N : ℕ) (old new : ℕ → ℚ) : ℚ :=
  (((List.range N).map (fun i => (old i - new i) ^ 2)).sum) / (N : ℚ)

/-- `Real.sqrt q < t` for `q ≥ 0`, expressed without square roots:
equivalent to `0 < t ∧ q < t^2`.  This models the convergence test
`diff < optcontrol.tolerance_iteration` with `diff = sqrt(delta⋅delta/N)`
(optimize.cpp:2295-2297, 2340-2342). -/
def sqrtLtB (q t : ℚ) : Bool :=
  decide (0 < t) && decide (q < t ^ 2)

/-- The `while (iloop < optcontrol.maxnum_iteration)` loop of
`coordinate_descent` (optimize.cpp:2273-2361): `fuel` is the number of
remaining allowed iterations (`maxnum_iteration - iloop`); after each
iteration `iloop` is incremented and the loop breaks when the normalized
change drops below the tolerance. -/
def cdLoop (M N : ℕ) (standardize : Bool) (A : ℕ → ℕ → ℚ)
    (Minv alphlambda tol : ℚ) (scale_beta : ℕ → ℚ) :
    ℕ → (ℕ → ℚ) × (ℕ → ℚ) → ℕ → ((ℕ → ℚ) × (ℕ → ℚ)) × ℕ
  | 0, st, iloop => (st, iloop)
  | fuel + 1, st, iloop =>
      let st' := cdIterationStep M N standardize A Minv alphlambda scale_beta st
      if sqrtLtB (cdDiffSq N st.1 st'.1) tol then (st', iloop + 1)
      else cdLoop M N standardize A Minv alphlambda tol scale_beta fuel st' (iloop + 1)

/-- The observable outcome of `coordinate_descent`: the coefficients
written back to `x`, the number of executed iterations (`iloop`), and
whether the "Convergence NOT achieved" warning was printed. -/
structure CDResult where
  x : ℕ → ℚ
  iterations : ℕ
  warned_not_converged : Bool

/-- `Optimize::coordinate_descent` (optimize.cpp:2234-2394).  Without warm
start, `beta` starts from zero and `grad` from `grad0`; `Minv = 1/M`,
`alphlambda = alpha * l1_ratio`.  The final `beta` is always copied to `x`
(optimize.cpp:2393).  The "Convergence NOT achieved" warning is printed
only when `verbosity > 0` and `iloop >= maxnum_iteration`
(optimize.cpp:2362-2366). -/
def coordinate_descent (optcontrol : OptimizerControl) (M N : ℕ) (alpha : ℚ)
    (warm_start : Bool) (x : ℕ → ℚ) (A : ℕ → ℕ → ℚ) (grad0 grad : ℕ → ℚ)
    (scale_beta : ℕ → ℚ) (verbosity : ℤ) : CDResult :=
  let beta := if warm_start then x else fun _ => 0
  let grad1 := if warm_start then grad else grad0
  let Minv : ℚ := 1 / (M : ℚ)
  let alphlambda := alpha * optcontrol.l1_ratio
  let std : Bool := decide (optcontrol.standardize ≠ 0)
  let res := cdLoop M N std A Minv alphlambda optcontrol.tolerance_iteration scale_beta
    optcontrol.maxnum_iteration (beta, grad1) 0
  { x := res.1.1
    iterations := res.2
    warned_not_converged :=
      decide (0 < verbosity) && decide (optcontrol.maxnum_iteration ≤ res.2) }

section CDLoopLemmas

variable (M N : ℕ) (standardize : Bool) (A : ℕ → ℕ → ℚ)
variable (Minv alphlambda tol : ℚ) (scale_beta : ℕ → ℚ)

lemma cdLoop_iloop_shift :
    ∀ (fuel : ℕ) (st : (ℕ → ℚ) × (ℕ → ℚ)) (iloop : ℕ),
      cdLoop M N standardize A Minv alphlambda tol scale_beta fuel st iloop =
        ((cdLoop M N standardize A Minv alphlambda tol scale_beta fuel st 0).1,
         iloop + (cdLoop M N standardize A Minv alphlambda tol scale_beta fuel st 0).2) := by
  intro fuel
  induction fuel with
  | zero => intro st iloop; simp [cdLoop]
  | succ f ih =>
      intro st iloop
      simp only [cdLoop]
      by_cases h : sqrtLtB (cdDiffSq N st.1
        (cdIterationStep M N standardize A Minv alphlambda scale_beta st).1) tol = true
      · rw [if_pos h, if_pos h]
      · rw [if_neg h, if_neg h,
          ih (cdIterationStep M N standardize A Minv alphlambda scale_beta st) (iloop + 1),
          ih (cdIterationStep M N standardize A Minv alphlambda scale_beta st) 1]
        simp [Nat.add_assoc]

lemma cdLoop_iterations_le :
    ∀ (fuel : ℕ) (st : (ℕ → ℚ) × (ℕ → ℚ)),
      (cdLoop M N standardize A Minv alphlambda tol scale_beta fuel st 0).2 ≤ fuel ∧
      (0 < fuel →
        0 < (cdLoop M N standardize A Minv alphlambda tol scale_beta fuel st 0).2) := by
  intro fuel
  induction fuel with
  | zero => intro st; exact ⟨le_rfl, fun h => absurd h (by omega)⟩
  | succ f ih =>
      intro st
      simp only [cdLoop]
      by_cases h : sqrtLtB (cdDiffSq N st.1
        (cdIterationStep M N standardize A Minv alphlambda scale_beta st).1) tol = true
      · rw [if_pos h]
        exact ⟨by omega, fun _ => by omega⟩
      · rw [if_neg h,
          cdLoop_iloop_shift M N standardize A Minv alphlambda tol scale_beta f _ 1]
        have hf := ih (cdIterationStep M N standardize A Minv alphlambda scale_beta st)
        exact ⟨by omega, fun _ => by omega⟩

lemma cdLoop_state :
    ∀ (fuel : ℕ) (st : (ℕ → ℚ) × (ℕ → ℚ)),
      (cdLoop M N standardize A Minv alphlambda tol scale_beta fuel st 0).1 =
        (cdIterationStep M N standardize A Minv alphlambda scale_beta)^[
          (cdLoop M N standardize A Minv alphlambda tol scale_beta fuel st 0).2] st := by
  intro fuel
  induction fuel with
  | zero => intro st; rfl
  | succ f ih =>
      intro st
      simp only [cdLoop]
      by_cases h : sqrtLtB (cdDiffSq N st.1
        (cdIterationStep M N standardize A Minv alphlambda scale_beta st).1) tol = true
      · rw [if_pos h]
        rfl
      · rw [if_neg h,
          cdLoop_iloop_shift M N standardize A Minv alphlambda tol scale_beta f _ 1]
        rw [ih (cdIterationStep M N standardize A Minv alphlambda scale_beta st)]
        rw [show (1 : ℕ) + (cdLoop M N standardize A Minv alphlambda tol scale_beta f
            (cdIterationStep M N standardize A Minv alphlambda scale_beta st) 0).2 =
          (cdLoop M N standardize A Minv alphlambda tol scale_beta f
            (cdIterationStep M N standardize A Minv alphlambda scale_beta st) 0).2 + 1
          by omega]
        rw [Function.iterate_succ_apply]

lemma cdLoop_no_early_stop :
    ∀ (fuel : ℕ) (st : (ℕ → ℚ) × (ℕ → ℚ)) (k : ℕ),
      k + 1 < (cdLoop M N standardize A Minv alphlambda tol scale_beta fuel st 0).2 →
      sqrtLtB (cdDiffSq N
        ((cdIterationStep M N standardize A Minv alphlambda scale_beta)^[k] st).1
        ((cdIterationStep M N standardize A Minv alphlambda scale_beta)^[k + 1] st).1)
        tol = false := by
  intro fuel
  induction fuel with
  | zero => intro st k hk; exact absurd hk (by simp only [cdLoop]; omega)
  | succ f ih =>
      intro st k hk
      simp only [cdLoop] at hk
      by_cases h : sqrtLtB (cdDiffSq N st.1
        (cdIterationStep M N standardize A Minv alphlambda scale_beta st).1) tol = true
      · rw [if_pos h] at hk
        exact absurd hk (by omega)
      · rw [if_neg h,
          cdLoop_iloop_shift M N standardize A Minv alphlambda tol scale_beta f _ 1] at hk
        cases k with
        | zero =>
            simpa using Bool.not_eq_true _ |>.mp h
        | succ k' =>
            have hk' : k' + 1 < (cdLoop M N standardize A Minv alphlambda tol scale_beta f
                (cdIterationStep M N standardize A Minv alphlambda scale_beta st) 0).2 := by
              dsimp only at hk
              omega
            have := ih (cdIterationStep M N standardize A Minv alphlambda scale_beta st) k' hk'
            rw [Function.iterate_succ_apply, Function.iterate_succ_apply]
            exact this

lemma cdLoop_stops_below_tol :
    ∀ (fuel : ℕ) (st : (ℕ → ℚ) × (ℕ → ℚ)),
      (cdLoop M N standardize A Minv alphlambda tol scale_beta fuel st 0).2 < fuel →
      0 < (cdLoop M N standardize A Minv alphlambda tol scale_beta fuel st 0).2 ∧
      sqrtLtB (cdDiffSq N
        ((cdIterationStep M N standardize A Minv alphlambda scale_beta)^[
          (cdLoop M N standardize A Minv alphlambda tol scale_beta fuel st 0).2 - 1] st).1
        ((cdIterationStep M N standardize A Minv alphlambda scale_beta)^[
          (cdLoop M N standardize A Minv alphlambda tol scale_beta fuel st 0).2] st).1)
        tol = true := by
  intro fuel
  induction fuel with
  | zero => intro st h; exact absurd h (by omega)
  | succ f ih =>
      intro st hlt
      simp only [cdLoop] at hlt ⊢
      by_cases h : sqrtLtB (cdDiffSq N st.1
        (cdIterationStep M N standardize A Minv alphlambda scale_beta st).1) tol = true
      · rw [if_pos h] at hlt ⊢
        exact ⟨by omega, by simpa using h⟩
      · rw [if_neg h,
          cdLoop_iloop_shift M N standardize A Minv alphlambda tol scale_beta f _ 1] at hlt ⊢
        simp only at hlt ⊢
        have hr2 : (cdLoop M N standardize A Minv alphlambda tol scale_beta f
            (cdIterationStep M N standardize A Minv alphlambda scale_beta st) 0).2 < f := by
          omega
        obtain ⟨hpos, hstop⟩ :=
          ih (cdIterationStep M N standardize A Minv alphlambda scale_beta st) hr2
        refine ⟨by omega, ?_⟩
        rw [show (1 : ℕ) + (cdLoop M N standardize A Minv alphlambda tol scale_beta f
            (cdIterationStep M N standardize A Minv alphlambda scale_beta st) 0).2 - 1 =
          ((cdLoop M N standardize A Minv alphlambda tol scale_beta f
            (cdIterationStep M N standardize A Minv alphlambda scale_beta st) 0).2 - 1) + 1
          by omega]
        rw [show (1 : ℕ) + (cdLoop M N standardize A Minv alphlambda tol scale_beta f
            (cdIterationStep M N standardize A Minv alphlambda scale_beta st) 0).2 =
          (cdLoop M N standardize A Minv alphlambda tol scale_beta f
            (cdIterationStep M N standardize A Minv alphlambda scale_beta st) 0).2 + 1
          by omega]
        rw [Function.iterate_succ_apply, Function.iterate_succ_apply]
        exact hstop

end CDLoopLemmas

/-- C7 (amended): `coordinate_descent` executes at most
`maxnum_iteration` iterations; it stops early after an iteration exactly
when that iteration's normalized coefficient change `sqrt(Σ δ_i² / N)`
drops below the configured tolerance (earlier iterations never satisfied
the test); the final coefficient vector is written to `x` in every case,
converged or not; and the "Convergence NOT achieved" warning fires exactly
when the iteration count reaches the cap **and verbosity is positive**. -/
theorem coordinate_descent_termination
    (optcontrol : OptimizerControl) (M N : ℕ) (alpha : ℚ) (warm_start : Bool)
    (x : ℕ → ℚ) (A : ℕ → ℕ → ℚ) (grad0 grad : ℕ → ℚ) (scale_beta : ℕ → ℚ)
    (verbosity : ℤ) :
    (coordinate_descent optcontrol M N alpha warm_start x A grad0 grad scale_beta
        verbosity).iterations ≤ optcontrol.maxnum_iteration ∧
    ((coordinate_descent optcontrol M N alpha warm_start x A grad0 grad scale_beta
        verbosity).warned_not_converged = true ↔
      0 < verbosity ∧ optcontrol.maxnum_iteration ≤
        (coordinate_descent optcontrol M N alpha warm_start x A grad0 grad scale_beta
          verbosity).iterations) ∧
    (coordinate_descent optcontrol M N alpha warm_start x A grad0 grad scale_beta
        verbosity).x =
      ((cdIterationStep M N (decide (optcontrol.standardize ≠ 0)) A (1 / (M : ℚ))
          (alpha * optcontrol.l1_ratio) scale_beta)^[
        (coordinate_descent optcontrol M N alpha warm_start x A grad0 grad scale_beta
          verbosity).iterations]
        ((if warm_start then x else fun _ => 0),
         (if warm_start then grad else grad0))).1 ∧
    (∀ k, k + 1 < (coordinate_descent optcontrol M N alpha warm_start x A grad0 grad
        scale_beta verbosity).iterations →
      sqrtLtB (cdDiffSq N
        (((cdIterationStep M N (decide (optcontrol.standardize ≠ 0)) A (1 / (M : ℚ))
            (alpha * optcontrol.l1_ratio) scale_beta)^[k]
          ((if warm_start then x else fun _ => 0),
           (if warm_start then grad else grad0))).1)
        (((cdIterationStep M N (decide (optcontrol.standardize ≠ 0)) A (1 / (M : ℚ))
            (alpha * optcontrol.l1_ratio) scale_beta)^[k + 1]
          ((if warm_start then x else fun _ => 0),
           (if warm_start then grad else grad0))).1))
        optcontrol.tolerance_iteration = false) ∧
    ((coordinate_descent optcontrol M N alpha warm_start x A grad0 grad scale_beta
        verbosity).iterations < optcontrol.maxnum_iteration →
      0 < (coordinate_descent optcontrol M N alpha warm_start x A grad0 grad scale_beta
        verbosity).iterations ∧
      sqrtLtB (cdDiffSq N
        (((cdIterationStep M N (decide (optcontrol.standardize ≠ 0)) A (1 / (M : ℚ))
            (alpha * optcontrol.l1_ratio) scale_beta)^[
          (coordinate_descent optcontrol M N alpha warm_start x A grad0 grad scale_beta
            verbosity).iterations - 1]
          ((if warm_start then x else fun _ => 0),
           (if warm_start then grad else grad0))).1)
        (((cdIterationStep M N (decide (optcontrol.standardize ≠ 0)) A (1 / (M : ℚ))
            (alpha * optcontrol.l1_ratio) scale_beta)^[
          (coordinate_descent optcontrol M N alpha warm_start x A grad0 grad scale_beta
            verbosity).iterations]
          ((if warm_start then x else fun _ => 0),
           (if warm_start then grad else grad0))).1))
        optcontrol.tolerance_iteration = true) := by
  simp only [coordinate_descent]
  refine ⟨?_, ?_, ?_, ?_, ?_⟩
  · exact (cdLoop_iterations_le M N _ A _ _ _ scale_beta
      optcontrol.maxnum_iteration _).1
  · simp
  · exact congrArg Prod.fst
      (cdLoop_state M N _ A _ _ _ scale_beta optcontrol.maxnum_iteration _)
  · intro k hk
    exact cdLoop_no_early_stop M N _ A _ _ _ scale_beta
      optcontrol.maxnum_iteration _ k hk
  · intro hlt
    exact cdLoop_stops_below_tol M N _ A _ _ _ scale_beta
      optcontrol.maxnum_iteration _ hlt

/-- C7 counterexample: a concrete run (1×1 design matrix, tolerance 0,
iteration cap 1, `verbosity = 0`) reaches the cap without converging — the
sole iteration's convergence test fails — yet no "Convergence NOT achieved"
warning is emitted, because the warning is printed only under
`verbosity > 0` (optimize.cpp:2362-2366); this refutes the claim that the
warning is emitted whenever the cap is reached without convergence. -/
theorem coordinate_descent_cap_reached_without_warning :
    (coordinate_descent ⟨2, 0, 1, 0, 0, 0, 0, 1, 1, 0, 1, 1, false⟩ 1 1 0 false
        (fun _ => 0) (fun _ _ => 1) (fun _ => 1) (fun _ => 0) (fun _ => 1)
        0).iterations = 1 ∧
    (coordinate_descent ⟨2, 0, 1, 0, 0, 0, 0, 1, 1, 0, 1, 1, false⟩ 1 1 0 false
        (fun _ => 0) (fun _ _ => 1) (fun _ => 1) (fun _ => 0) (fun _ => 1)
        0).warned_not_converged = false ∧
    sqrtLtB (cdDiffSq 1 (fun _ => (0 : ℚ))
        ((cdIterationStep 1 1 true (fun _ _ => 1) 1 0 (fun _ => 1))
          ((fun _ => (0 : ℚ)), (fun _ => (1 : ℚ)))).1) 0 = false := by
  refine ⟨?_, ?_, ?_⟩ <;>
  · simp [coordinate_descent, cdLoop, cdIterationStep, cdUpdateCoord, shrink, colDot,
      cdDiffSq, sqrtLtB, List.range_succ, Function.update_apply]

/-- Closed witness for `coordinate_descent_termination`: a 1×1 run with
tolerance 1/2 and cap 5 converges after exactly 2 iterations: the first
iteration's normalized change (1) is not below the tolerance, the second
iteration's (0) is, and the loop stops there, below the cap. -/
theorem coordinate_descent_termination_witness :
    (coordinate_descent ⟨2, 0, 1, 0, 0, 0, 0, 1, 5, 1 / 2, 1, 1, false⟩ 1 1 0 false
        (fun _ => 0) (fun _ _ => 1) (fun _ => 1) (fun _ => 0) (fun _ => 1)
        1).iterations ≤ 5 ∧
    sqrtLtB (cdDiffSq 1
        (((cdIterationStep 1 1 true (fun _ _ => 1) 1 0 (fun _ => 1))^[0]
          ((fun _ => (0 : ℚ)), (fun _ => (1 : ℚ)))).1)
        (((cdIterationStep 1 1 true (fun _ _ => 1) 1 0 (fun _ => 1))^[1]
          ((fun _ => (0 : ℚ)), (fun _ => (1 : ℚ)))).1)) (1 / 2) = false ∧
    sqrtLtB (cdDiffSq 1
        (((cdIterationStep 1 1 true (fun _ _ => 1) 1 0 (fun _ => 1))^[1]
          ((fun _ => (0 : ℚ)), (fun _ => (1 : ℚ)))).1)
        (((cdIterationStep 1 1 true (fun _ _ => 1) 1 0 (fun _ => 1))^[2]
          ((fun _ => (0 : ℚ)), (fun _ => (1 : ℚ)))).1)) (1 / 2) = true ∧
    (coordinate_descent ⟨2, 0, 1, 0, 0, 0, 0, 1, 5, 1 / 2, 1, 1, false⟩ 1 1 0 false
        (fun _ => 0) (fun _ _ => 1) (fun _ => 1) (fun _ => 0) (fun _ => 1)
        1).iterations = 2 := by
  have h := coordinate_descent_termination ⟨2, 0, 1, 0, 0, 0, 0, 1, 5, 1 / 2, 1, 1, false⟩
    1 1 0 false (fun _ => 0) (fun _ _ => 1) (fun _ => 1) (fun _ => 0) (fun _ => 1) 1
  have hit : (coordinate_descent ⟨2, 0, 1, 0, 0, 0, 0, 1, 5, 1 / 2, 1, 1, false⟩ 1 1 0 false
      (fun _ => 0) (fun _ _ => 1) (fun _ => 1) (fun _ => 0) (fun _ => 1)
      1).iterations = 2 := by
    simp [coordinate_descent, cdLoop, cdIterationStep, cdUpdateCoord, shrink, colDot,
      cdDiffSq, sqrtLtB, List.range_succ, Function.update_apply]
    norm_num
  refine ⟨h.1, ?_, ?_, hit⟩
  · have h4 := h.2.2.2.1 0 (by rw [hit]; omega)
    simpa using h4
  · have h5 := h.2.2.2.2 (by rw [hit]; decide)
    rw [hit] at h5
    have h52 := h5.2
    simpa using h52

/-- The four per-column vectors produced by `Optimize::get_standardizer`. -/
structure StandardizerResult where
  mean : ℕ → ℚ
  dev : ℕ → ℚ
  factor_std : ℕ → ℚ
  scale_beta : ℕ → ℚ

/-- The column sum `Amat.col(j).sum` over `nrows` rows. -/
def colSum (nrows : ℕ) (Amat : ℕ → ℕ → ℚ) (j : ℕ) : ℚ :=
  ((List.range nrows).map (fun i => Amat i j)).sum

/-- `Optimize::get_standardizer` (optimize.cpp:975-1010).  `sum1` is the
column mean `col.sum * inv_nrows`, `sum2` the column mean square
`col.dot(col) * inv_nrows`.  With the standardize flag on, `dev` is the
standard deviation (`sqrtQ` stands for the external `std::sqrt`, applied
only in this branch) and `factor_std = 1/dev`; with it off, no statistic
is applied to the matrix — `mean = 0`, `dev = 1`, `factor_std = 1` — and
`scale_beta(j) = 1/sum2`, the reciprocal of the column's mean square. -/
def get_standardizer (standardize : Bool) (nrows : ℕ) (Amat : ℕ → ℕ → ℚ)
    (sqrtQ : ℚ → ℚ) : StandardizerResult :=
  let inv_nrows : ℚ := 1 / (nrows : ℚ)
  if standardize then
    { mean := fun j => colSum nrows Amat j * inv_nrows
      dev := fun j => sqrtQ (colDot nrows Amat j j * inv_nrows -
        (colSum nrows Amat j * inv_nrows) ^ 2)
      factor_std := fun j => 1 / sqrtQ (colDot nrows Amat j j * inv_nrows -
        (colSum nrows Amat j * inv_nrows) ^ 2)
      scale_beta := fun _ => 1 }
  else
    { mean := fun _ => 0
      dev := fun _ => 1
      factor_std := fun _ => 1
      scale_beta := fun j => 1 / (colDot nrows Amat j j * inv_nrows) }

/-- `Optimize::apply_standardizer` (optimize.cpp:1012-1029):
`Amat(i,j) = (Amat(i,j) - mean(j)) / dev(j)`. -/
def apply_standardizer (Amat : ℕ → ℕ → ℚ) (mean dev : ℕ → ℚ) : ℕ → ℕ → ℚ :=
  fun i j => (Amat i j - mean j) / dev j

/-- The preprocessing block of `Optimize::run_elastic_net_optimization`
(optimize.cpp:885-901): with the standardize flag on, `get_standardizer`
then `apply_standardizer` on `A`; with it off, `get_standardizer` only and
`A` is left untouched; afterwards `scale_beta` is adjusted for the L2 part
of the penalty, `scale_beta(i) = 1/(1/scale_beta(i) + (1-l1_ratio)*l1_alpha)`.
Returns the matrix seen by `coordinate_descent`, the standardizer vectors,
and the adjusted `scale_beta`. -/
def elastic_net_preprocess (standardize : Bool) (M : ℕ) (A : ℕ → ℕ → ℚ)
    (l1_ratio l1_alpha : ℚ) (sqrtQ : ℚ → ℚ) :
    (ℕ → ℕ → ℚ) × StandardizerResult × (ℕ → ℚ) :=
  let std := get_standardizer standardize M A sqrtQ
  let A' := if standardize then apply_standardizer A std.mean std.dev else A
  let scale_beta' := fun i => 1 / (1 / std.scale_beta i + (1 - l1_ratio) * l1_alpha)
  (A', std, scale_beta')

/-- C8 counterexample: with the standardize flag off, `M = 2` rows and the
single column `(2, 0)` (sum of squares 4), the claim predicts the
preprocessed column entry `2 / 4 = 1/2`; the code leaves the matrix
untouched (the entry stays 2), and the scale factor it stores instead is
`scale_beta = 1/(ssq/M) = 2/4 = 1/2` — the reciprocal of the column's mean
square, not of its sum of squares (`1/4`). -/
theorem scaleonly_preprocessing_not_column_division :
    (elastic_net_preprocess false 2 (fun i _ => if i = 0 then (2 : ℚ) else 0) 1 0 id).1 0 0
      = 2 ∧
    ((2 : ℚ) / ((2 : ℚ) ^ 2 + 0 ^ 2) = 1 / 2) ∧ (2 : ℚ) ≠ 1 / 2 ∧
    (get_standardizer false 2 (fun i _ => if i = 0 then (2 : ℚ) else 0) id).scale_beta 0
      = 1 / 2 ∧
    (1 / 2 : ℚ) ≠ 1 / 4 := by
  refine ⟨?_, by norm_num, by norm_num, ?_, by norm_num⟩
  · simp [elastic_net_preprocess, get_standardizer]
  · simp [get_standardizer, colDot, List.range_succ]

/-- C8 (amended): with the standardize flag off, the elastic-net design
matrix is left entirely unchanged — no centering and no column scaling
(`mean = 0`, `dev = 1`, `factor_std = 1`) — and the per-coordinate factor
`scale_beta(j)` is set to the reciprocal of the column's **mean** square,
`nrows / (sum of squares of column j)`, then adjusted for the L2 penalty to
`1/(ssq_j/nrows + (1-l1_ratio)*l1_alpha)`; this factor rescales coordinate
`j` inside the coordinate-descent update instead of rescaling the matrix. -/
theorem scaleonly_preprocessing_behavior (M : ℕ) (A : ℕ → ℕ → ℚ)
    (l1_ratio l1_alpha : ℚ) (sqrtQ : ℚ → ℚ) :
    (elastic_net_preprocess false M A l1_ratio l1_alpha sqrtQ).1 = A ∧
    (∀ j, (elastic_net_preprocess false M A l1_ratio l1_alpha sqrtQ).2.1.mean j = 0) ∧
    (∀ j, (elastic_net_preprocess false M A l1_ratio l1_alpha sqrtQ).2.1.dev j = 1) ∧
    (∀ j, (elastic_net_preprocess false M A l1_ratio l1_alpha sqrtQ).2.1.factor_std j = 1) ∧
    (∀ j, (elastic_net_preprocess false M A l1_ratio l1_alpha sqrtQ).2.1.scale_beta j =
      (M : ℚ) / colDot M A j j) ∧
    (∀ j, (elastic_net_preprocess false M A l1_ratio l1_alpha sqrtQ).2.2 j =
      1 / (colDot M A j j / (M : ℚ) + (1 - l1_ratio) * l1_alpha)) := by
  refine ⟨rfl, fun j => rfl, fun j => rfl, fun j => rfl, ?_, ?_⟩
  · intro j
    show 1 / (colDot M A j j * (1 / (M : ℚ))) = (M : ℚ) / colDot M A j j
    simp only [one_div]
    rw [mul_inv_rev, inv_inv, div_eq_mul_inv]
  · intro j
    show 1 / (1 / (1 / (colDot M A j j * (1 / (M : ℚ)))) + (1 - l1_ratio) * l1_alpha) =
      1 / (colDot M A j j / (M : ℚ) + (1 - l1_ratio) * l1_alpha)
    rw [one_div_one_div, mul_one_div]

end ALM
